import Mathlib

/-!
Verification development for the MCMC inference engine of a network-GLM
repository (`inference/gibbs.py` and its orchestrator `gibbs_sample`).

The numeric state of the Python code consists of IEEE double values; the
claims under study concern the propagation of the special values `inf`,
`-inf` and `nan` through log-probability computations.  We therefore embed
machine numbers as an extended type `FV α` over an exact ordered field `α`
(finite payloads are exact; the special values carry IEEE semantics for the
operations the code uses).  External collaborators (the Theano model
evaluator `glm.ll.eval`, `np.log`, `scipy.misc.logsumexp`, the
`log_sum_exp_sample` categorical sampler and the `hmc` primitive live
outside the repository sources) enter as explicit function parameters, or
as definitions modelled from the specification where noted.
-/

namespace PyGLM

/-- Extended machine value: a finite exact payload, plus the IEEE special
values positive infinity, negative infinity and NaN. -/
inductive FV (α : Type) where
  | fin : α → FV α
  | pinf : FV α
  | ninf : FV α
  | nan : FV α
deriving DecidableEq, Repr

namespace FV

variable {α : Type} [LinearOrderedField α]

/-- IEEE addition on extended values: NaN absorbs, opposite infinities
give NaN, an infinity dominates finite values. -/
def fadd : FV α → FV α → FV α
  | nan, _ => nan
  | _, nan => nan
  | pinf, ninf => nan
  | ninf, pinf => nan
  | pinf, _ => pinf
  | _, pinf => pinf
  | ninf, _ => ninf
  | _, ninf => ninf
  | fin a, fin b => fin (a + b)

/-- IEEE negation on extended values. -/
def fneg : FV α → FV α
  | nan => nan
  | pinf => ninf
  | ninf => pinf
  | fin a => fin (-a)

/-- IEEE subtraction on extended values. -/
def fsub (x y : FV α) : FV α := fadd x (fneg y)

/-- IEEE multiplication on extended values: NaN absorbs, infinity times
zero is NaN, otherwise signs multiply. -/
def fmul : FV α → FV α → FV α
  | nan, _ => nan
  | _, nan => nan
  | fin a, fin b => fin (a * b)
  | fin a, pinf => if 0 < a then pinf else if a < 0 then ninf else nan
  | fin a, ninf => if 0 < a then ninf else if a < 0 then pinf else nan
  | pinf, fin a => if 0 < a then pinf else if a < 0 then ninf else nan
  | ninf, fin a => if 0 < a then ninf else if a < 0 then pinf else nan
  | pinf, pinf => pinf
  | pinf, ninf => ninf
  | ninf, pinf => ninf
  | ninf, ninf => pinf

/-- IEEE division on extended values: NaN absorbs, `0/0` and `inf/inf`
are NaN, a nonzero finite value over zero is a signed infinity, a finite
value over an infinity is zero.  (Signed zero is not modelled.) -/
def fdiv : FV α → FV α → FV α
  | nan, _ => nan
  | _, nan => nan
  | fin a, fin b =>
      if b = 0 then (if 0 < a then pinf else if a < 0 then ninf else nan)
      else fin (a / b)
  | fin _, pinf => fin 0
  | fin _, ninf => fin 0
  | pinf, fin b => if b < 0 then ninf else pinf
  | ninf, fin b => if b < 0 then pinf else ninf
  | pinf, pinf => nan
  | pinf, ninf => nan
  | ninf, pinf => nan
  | ninf, ninf => nan

/-- IEEE strict comparison: any comparison with NaN is false. -/
def flt : FV α → FV α → Bool
  | fin a, fin b => decide (a < b)
  | fin _, pinf => true
  | fin _, ninf => false
  | fin _, nan => false
  | pinf, _ => false
  | ninf, fin _ => true
  | ninf, pinf => true
  | ninf, ninf => false
  | ninf, nan => false
  | nan, _ => false

/-- IEEE non-strict comparison: any comparison with NaN is false. -/
def fle : FV α → FV α → Bool
  | fin a, fin b => decide (a ≤ b)
  | fin _, pinf => true
  | fin _, ninf => false
  | fin _, nan => false
  | pinf, pinf => true
  | pinf, fin _ => false
  | pinf, ninf => false
  | pinf, nan => false
  | ninf, nan => false
  | ninf, _ => true
  | nan, _ => false

/-- The `np.isnan` test. -/
def isnan : FV α → Bool
  | nan => true
  | _ => false

/-- The `np.isfinite` test. -/
def isfinite : FV α → Bool
  | fin _ => true
  | _ => false

end FV

/-! ### List helpers shared by the embeddings -/

/-- Read entry `(i, j)` of a matrix stored as a list of rows, with a
default for out-of-range indices. -/
def get2 {β : Type} (m : List (List β)) (i j : ℕ) (d : β) : β :=
  (m.getD i []).getD j d

/-- Write entry `(i, j)` of a matrix stored as a list of rows
(out-of-range writes are dropped, as `List.set` does). -/
def set2 {β : Type} (m : List (List β)) (i j : ℕ) (v : β) : List (List β) :=
  m.set i ((m.getD i []).set j v)

/-- Midpoints of adjacent entries, `(l[1:] + l[:-1]) / 2`. -/
def midpoints {α : Type} [LinearOrderedField α] (l : List α) : List α :=
  (l.zip l.tail).map fun p => (p.1 + p.2) / 2

/-- Adjacent differences, `l[1:] - l[:-1]`. -/
def adjacentDiffs {α : Type} [LinearOrderedField α] (l : List α) : List α :=
  (l.zip l.tail).map fun p => p.2 - p.1

/-! ### The shared parameter state

`x['net']['graph']['A']` is an `N x N` int matrix, `x['net']['weights']['W']`
is stored flattened (the code reshapes it to `A.shape` before indexing and
ravels it back), `x['net']['graph']['L']` is an optional latent coordinate
matrix, and `x['glms'][k]` is the per-unit GLM parameter record (an abstract
type `G` here, since its content is owned by the external model evaluator). -/

structure FullState (α : Type) (G : Type) where
  A : List (List ℕ)
  W : List (FV α)
  L : Option (List (List (FV α)))
  glms : List G
deriving DecidableEq

variable {α : Type} [LinearOrderedField α] {G : Type}

/-- Read `A[i, j]`. -/
def getA (x : FullState α G) (i j : ℕ) : ℕ := get2 x.A i j 0

/-- Write `A[i, j]` (the adjacency matrix is aliased, not copied, between
the containers of the Python state, so a write is immediately visible to
every reader of the state). -/
def setAentry (x : FullState α G) (i j : ℕ) (v : ℕ) : FullState α G :=
  { x with A := set2 x.A i j v }

/-- Flat row-major index of `(i, j)` under `W.reshape(A.shape)`. -/
def flatIdx (x : FullState α G) (i j : ℕ) : ℕ := i * x.A.length + j

/-- Read `W[i, j]` of the reshaped weight matrix. -/
def getW (x : FullState α G) (i j : ℕ) : FV α := x.W.getD (flatIdx x i j) (FV.fin 0)

/-- Write `W[i, j]` of the reshaped weight matrix and ravel back. -/
def setWentry (x : FullState α G) (i j : ℕ) (v : FV α) : FullState α G :=
  { x with W := x.W.set (flatIdx x i j) v }

/-- Well-formed data-model state for population size `N`: the adjacency
matrix is `N x N` with entries that are exactly 0 or 1, and the flattened
weight matrix has matching size `N * N`. -/
def wfState (N : ℕ) (x : FullState α G) : Prop :=
  x.A.length = N ∧ (∀ r ∈ x.A, r.length = N) ∧ x.W.length = N * N ∧
    (∀ r ∈ x.A, ∀ v ∈ r, v = 0 ∨ v = 1)

instance (N : ℕ) (x : FullState α G) : Decidable (wfState N x) := by
  unfold wfState; infer_instance

/-! ### The likelihood probe helpers of the collapsed update

`_glm_ll_A` evaluates the GLM log likelihood with the edge forced present
at a probe weight, `_glm_ll_noA` with the edge forced absent.  The external
Theano evaluation `self.glm.ll.eval(...)` (together with the precomputed
currents `I_bias`, `I_stim`, `I_imp` it is fed) is the parameter `evalLL`,
a pure function of the state.  Both helpers mutate the shared state and
restore the touched entries before returning; the returned pair is the
evaluated log likelihood together with the state as left behind. -/

/-- Embedding of `CollapsedGibbsNetworkColumnUpdate._glm_ll_A`: save
`A[n_pre, n_post]` and `W[n_pre, n_post]`, force `A = 1` and `W = w`,
evaluate the likelihood, then restore `A` and `W` in that order. -/
def glm_ll_A (evalLL : FullState α G → FV α) (n_pre n_post : ℕ) (w : FV α)
    (x : FullState α G) : FV α × FullState α G :=
  let A_init := getA x n_pre n_post
  let x1 := setAentry x n_pre n_post 1
  let W_init := getW x1 n_pre n_post
  let x2 := setWentry x1 n_pre n_post w
  let ll := evalLL x2
  let x3 := setWentry (setAentry x2 n_pre n_post A_init) n_pre n_post W_init
  (ll, x3)

/-- Embedding of `CollapsedGibbsNetworkColumnUpdate._glm_ll_noA`: save
`A[n_pre, n_post]`, force `A = 0`, evaluate the likelihood, restore `A`. -/
def glm_ll_noA (evalLL : FullState α G → FV α) (n_pre n_post : ℕ)
    (x : FullState α G) : FV α × FullState α G :=
  let A_init := getA x n_pre n_post
  let x1 := setAentry x n_pre n_post 0
  let ll := evalLL x1
  let x2 := setAentry x1 n_pre n_post A_init
  (ll, x2)

/-! ### Gauss-Hermite quadrature for the collapsed marginal likelihood

The degree and the node/weight tables come from
`np.polynomial.hermite.hermgauss(20)`; the tables enter as parameters
`ghx` (abscissae) and `ghw` (quadrature weights).  `np.log` is the
parameter `flog` (producing an extended value: `log 0 = -inf` on floats),
`scipy.misc.logsumexp` is the parameter `lse`, and `np.sqrt 2`,
`np.sqrt pi` enter as the parameters `sqrt2`, `sqrtpi`. -/

/-- The constant `self.DEG_GAUSS_HERMITE`. -/
def DEG_GAUSS_HERMITE : ℕ := 20

/-- The transformed quadrature nodes
`W_nns = np.sqrt(2) * sigma_w * GAUSS_HERMITE_ABSCISSAE + mu_w`. -/
def W_nns (sqrt2 sigma_w mu_w : α) (ghx : List α) : List α :=
  ghx.map fun c => sqrt2 * sigma_w * c + mu_w

/-- The `np.isnan` guard of the collapsed update: a NaN log value is
replaced by `-inf`, anything else passes through. -/
def guardNaN (v : FV α) : FV α := if v.isnan then FV.ninf else v

/-- The per-node log likelihoods `log_L[i] = _glm_ll_A(n_pre, n_post,
W_nns[i], ...)` of the quadrature loop. -/
def quad_log_L (ll : α → FV α) (wnns : List α) : List (FV α) := wnns.map ll

/-- The quadrature loop body for `weighted_log_L`: each entry is
`log_L[i] + np.log(w_i / np.sqrt(np.pi))`, with the `np.isnan` guard
applied after the sum.  (The first `np.isnan` check of the loop inspects
the zero-initialised `weighted_log_L[i]` before it is assigned and is then
immediately overwritten, so it has no effect and is not represented.) -/
def weighted_log_L (flog : α → FV α) (sqrtpi : α) (ghw : List α)
    (logL : List (FV α)) : List (FV α) :=
  List.zipWith (fun l g => guardNaN (FV.fadd l (flog (g / sqrtpi)))) logL ghw

/-- The marginal `log_G = logsumexp(weighted_log_L)`. -/
def log_G (lse : List (FV α) → FV α) (flog : α → FV α) (sqrtpi : α)
    (ghw : List α) (logL : List (FV α)) : FV α :=
  lse (weighted_log_L flog sqrtpi ghw logL)

/-! ### Piecewise posterior sampling of the weight (`np.interp` based) -/

/-- Model of `np.interp x xp fp` for an ascending grid `xp`: clamp to
`fp[0]` below the grid and to `fp[-1]` above it, linear interpolation on
the bracketing segment otherwise (with the NaN fallback of the numpy
kernel for degenerate segments). -/
def interpFV (xv : FV α) : List (FV α) → List (FV α) → FV α
  | x0 :: x1 :: xs, f0 :: f1 :: fs =>
      if FV.flt xv x0 then f0
      else if FV.fle xv x1 then
        let slope := FV.fdiv (FV.fsub f1 f0) (FV.fsub x1 x0)
        let r := FV.fadd (FV.fmul slope (FV.fsub xv x0)) f0
        if r = FV.nan then
          let r2 := FV.fadd (FV.fmul slope (FV.fsub xv x1)) f1
          if r2 = FV.nan ∧ f0 = f1 then f0 else r2
        else r
      else interpFV xv (x1 :: xs) (f1 :: fs)
  | [_], f0 :: _ => f0
  | _, _ => FV.nan

/-- The interpolation grid for the weight posterior:
`W_centers = [mu_w - 6 sigma_w] ++ (W_nns[1:] + W_nns[:-1]) / 2 ++
[mu_w + 6 sigma_w]`. -/
def W_centers (wnns : List α) (mu_w sigma_w : α) : List α :=
  [mu_w - 6 * sigma_w] ++ midpoints wnns ++ [mu_w + 6 * sigma_w]

/-- The bin widths `W_bin_sizes = W_nns[1:] - W_nns[:-1]`. -/
def W_bin_sizes (wnns : List α) : List α := adjacentDiffs wnns

/-- The node log prior `log_prior_W = -0.5 / sigma_w**2 * (W_nns - mu_w)**2`. -/
def log_prior_W (wnns : List α) (mu_w sigma_w : α) : List α :=
  wnns.map fun w => -(1 / 2) / sigma_w ^ 2 * (w - mu_w) ^ 2

/-- The node log posterior `log_posterior_W = log_prior_W + log_L` (the raw `log_L`
of the quadrature loop).  The normalised `log_p_W` computed on the next
source line is used only by a commented-out alternative CDF and is not
represented. -/
def log_posterior_W (wnns : List α) (mu_w sigma_w : α)
    (logL : List (FV α)) : List (FV α) :=
  List.zipWith (fun p l => FV.fadd (FV.fin p) l) (log_prior_W wnns mu_w sigma_w) logL

/-- The averaged per-bin log density:
`log_posterior_avg = [logsumexp(log_posterior_W[i:i+2]) for i in
range(DEG-1)] - np.log(2.0)`. -/
def log_posterior_avg (lse : List (FV α) → FV α) (flog : α → FV α)
    (logpost : List (FV α)) : List (FV α) :=
  (List.range (DEG_GAUSS_HERMITE - 1)).map fun i =>
    FV.fsub (lse ((logpost.drop i).take 2)) (flog 2)

/-- The bin mass `log_posterior_mass = log_posterior_avg + np.log(W_bin_sizes)`. -/
def log_posterior_mass (lse : List (FV α) → FV α) (flog : α → FV α)
    (logpost : List (FV α)) (wnns : List α) : List (FV α) :=
  List.zipWith (fun a b => FV.fadd a (flog b))
    (log_posterior_avg lse flog logpost) (W_bin_sizes wnns)

/-- The normalisation `log_posterior_mass -= logsumexp(log_posterior_mass)`. -/
def log_posterior_mass_norm (lse : List (FV α) → FV α) (flog : α → FV α)
    (logpost : List (FV α)) (wnns : List α) : List (FV α) :=
  let m := log_posterior_mass lse flog logpost wnns
  m.map fun v => FV.fsub v (lse m)

/-- The log CDF over the bins:
`log_F_W = [-inf] ++ [logsumexp(mass[:i]) for i in range(1, DEG)] ++ [0.0]`,
over the normalised masses. -/
def log_F_W (lse : List (FV α) → FV α) (flog : α → FV α)
    (logpost : List (FV α)) (wnns : List α) : List (FV α) :=
  let mn := log_posterior_mass_norm lse flog logpost wnns
  FV.ninf :: ((List.range' 1 (DEG_GAUSS_HERMITE - 1)).map fun i => lse (mn.take i))
    ++ [FV.fin 0]

/-- The full weight draw of the collapsed update when the edge was
sampled present: inverse-CDF interpolation of `np.log(np.random.rand())`
against the log CDF, onto the `W_centers` grid. -/
def sample_W (lse : List (FV α) → FV α) (flog : α → FV α)
    (logL : List (FV α)) (wnns : List α) (mu_w sigma_w : α) (u : α) : FV α :=
  interpFV (flog u)
    (log_F_W lse flog (log_posterior_W wnns mu_w sigma_w logL) wnns)
    ((W_centers wnns mu_w sigma_w).map FV.fin)

/-! ### The collapsed per-edge step `_collapsed_sample_AW`

Randomness enters as explicit draws: `uW` is the `np.random.rand()` of
the inverse-CDF step, `z` the `np.random.randn()` of the prior draw.
`sampler` is the external `log_sum_exp_sample`.  The boolean `hitPdb`
records that the `np.isfinite(log_G)` debug breakpoint
(`import pdb; pdb.set_trace()`) fired: the breakpoint does not raise, so
execution continues into the sampling of `A` either way.  `assertOk`
records the final `assert np.isfinite(...)` on the resampled weight. -/

structure AWStepResult (α : Type) (G : Type) where
  state : FullState α G
  hitPdb : Bool
  assertOk : Bool
deriving DecidableEq

/-- Embedding of `CollapsedGibbsNetworkColumnUpdate._collapsed_sample_AW`. -/
def collapsed_sample_AW (evalLL : FullState α G → FV α)
    (lse : List (FV α) → FV α) (flog : α → FV α)
    (sampler : List (FV α) → ℕ)
    (sqrt2 sqrtpi : α) (ghx ghw : List α)
    (mu_w sigma_w mu_w_ref sigma_w_ref : α)
    (p_A : ℕ → ℕ → α) (uW z : α)
    (n_pre n_post : ℕ) (x : FullState α G) : AWStepResult α G :=
  let mu := if n_pre = n_post then mu_w_ref else mu_w
  let sigma := if n_pre = n_post then sigma_w_ref else sigma_w
  let prior_lp_A := flog (p_A n_pre n_post)
  let prior_lp_noA := flog (1 - p_A n_pre n_post)
  let wnns := W_nns sqrt2 sigma mu ghx
  let logL := quad_log_L (fun w => (glm_ll_A evalLL n_pre n_post (FV.fin w) x).1) wnns
  let lG := log_G lse flog sqrtpi ghw logL
  let hit := !lG.isfinite
  let log_pr_A := FV.fadd prior_lp_A lG
  let log_pr_noA := guardNaN (FV.fadd prior_lp_noA (glm_ll_noA evalLL n_pre n_post x).1)
  let a_new := sampler [log_pr_noA, log_pr_A]
  let x1 := setAentry x n_pre n_post a_new
  if a_new = 1 then
    let wnew := sample_W lse flog logL wnns mu sigma uW
    let x2 := setWentry x1 n_pre n_post wnew
    ⟨x2, hit, (glm_ll_A evalLL n_pre n_post wnew x2).1.isfinite⟩
  else
    ⟨setWentry x1 n_pre n_post (FV.fin (mu + sigma * z)), hit, true⟩

/-! ### The alternative mode `_collapsed_sample_AW_with_prior` -/

/-- The quadrature weight resample shared by both accepting branches of
the with-prior mode: `log_L[i] = np.log(w_i / sqrt(pi)) + _glm_ll_A(...)`
with the NaN guard, `log_p_W = log_L - logsumexp(log_L)`,
`log_F_W = [logsumexp(log_p_W[:i]) for i in range(1, DEG)] + [0]`, and
inverse-CDF interpolation of `np.log(np.random.rand())` onto the node
grid `W_nns` itself (no tail bins in this mode). -/
def prior_W_resample (lse : List (FV α) → FV α) (flog : α → FV α)
    (sqrtpi : α) (ghw : List α) (wnns : List α) (ll : α → FV α) (u3 : α) : FV α :=
  let logL := List.zipWith (fun g w => guardNaN (FV.fadd (flog (g / sqrtpi)) (ll w))) ghw wnns
  let lG := lse logL
  let log_p_W := logL.map fun v => FV.fsub v lG
  let logF := ((List.range' 1 (DEG_GAUSS_HERMITE - 1)).map fun i => lse (log_p_W.take i))
    ++ [FV.fin 0]
  interpFV (flog u3) logF (wnns.map FV.fin)

/-- Embedding of
`CollapsedGibbsNetworkColumnUpdate._collapsed_sample_AW_with_prior`:
propose `A[i, j]` from the prior (`u1` is its uniform draw), accept or
reject with the quadrature marginal-likelihood ratio (`u2` its uniform
draw); when the proposal does not change `A`, resample the weight only if
the present entry is nonzero. -/
def collapsed_sample_AW_with_prior (evalLL : FullState α G → FV α)
    (lse : List (FV α) → FV α) (flog : α → FV α)
    (sqrt2 sqrtpi : α) (ghx ghw : List α)
    (mu_w sigma_w mu_w_ref sigma_w_ref : α)
    (p_A : ℕ → ℕ → α) (u1 u2 u3 : α)
    (n_pre n_post : ℕ) (x : FullState α G) : FullState α G :=
  let mu := if n_pre = n_post then mu_w_ref else mu_w
  let sigma := if n_pre = n_post then sigma_w_ref else sigma_w
  let prior_lp_A := flog (p_A n_pre n_post)
  let prop_A : ℕ := if FV.flt (flog u1) prior_lp_A then 1 else 0
  let A_cur := getA x n_pre n_post
  let wnns := W_nns sqrt2 sigma mu ghx
  let ll := fun w => (glm_ll_A evalLL n_pre n_post (FV.fin w) x).1
  if A_cur ≠ prop_A then
    let logL := List.zipWith (fun g w => guardNaN (FV.fadd (flog (g / sqrtpi)) (ll w))) ghw wnns
    let lG := lse logL
    let log_lkhd_noA := (glm_ll_noA evalLL n_pre n_post x).1
    let log_pr_accept := if prop_A = 1 then FV.fsub lG log_lkhd_noA
      else FV.fsub log_lkhd_noA lG
    if FV.flt (flog u2) log_pr_accept then
      let x1 := setAentry x n_pre n_post prop_A
      if prop_A ≠ 0 then
        setWentry x1 n_pre n_post (prior_W_resample lse flog sqrtpi ghw wnns ll u3)
      else x1
    else x
  else if A_cur ≠ 0 then
    setWentry x n_pre n_post (prior_W_resample lse flog sqrtpi ghw wnns ll u3)
  else x

/-- Embedding of `CollapsedGibbsNetworkColumnUpdate.update`: iterate the
per-edge step over the source units in the shuffled order `order`
(`np.random.shuffle` of `np.arange(N)`), dispatching on
`propose_from_prior`; per-source randomness enters as the streams
`uW, z, u1, u2, u3`. -/
def collapsed_update (propose_from_prior : Bool)
    (evalLL : FullState α G → FV α)
    (lse : List (FV α) → FV α) (flog : α → FV α)
    (sampler : List (FV α) → ℕ)
    (sqrt2 sqrtpi : α) (ghx ghw : List α)
    (mu_w sigma_w mu_w_ref sigma_w_ref : α)
    (p_A : ℕ → ℕ → α)
    (uW z u1 u2 u3 : ℕ → α)
    (order : List ℕ) (x : FullState α G) (n : ℕ) : FullState α G :=
  order.foldl (fun s n_pre =>
    if propose_from_prior then
      collapsed_sample_AW_with_prior evalLL lse flog sqrt2 sqrtpi ghx ghw
        mu_w sigma_w mu_w_ref sigma_w_ref p_A (u1 n_pre) (u2 n_pre) (u3 n_pre) n_pre n s
    else
      (collapsed_sample_AW evalLL lse flog sampler sqrt2 sqrtpi ghx ghw
        mu_w sigma_w mu_w_ref sigma_w_ref p_A (uW n_pre) (z n_pre) n_pre n s).state) x

/-! ### The weight-prior preprocessing of the collapsed update -/

/-- The weight model configuration read by
`CollapsedGibbsNetworkColumnUpdate.preprocess`: the standard prior
`(mu, sigma)` and, when the weight model `hasattr`s one, a refractory
prior pair. -/
structure WeightPriorCfg (α : Type) where
  mu : α
  sigma : α
  refractory_prior : Option (α × α)
deriving DecidableEq

/-- Embedding of the weight-model part of
`CollapsedGibbsNetworkColumnUpdate.preprocess`: returns
`((mu_w, sigma_w), (mu_w_ref, sigma_w_ref))`; absent a
`refractory_prior`, the refractory pair falls back to the standard one. -/
def preprocess_weight_priors (cfg : WeightPriorCfg α) : (α × α) × (α × α) :=
  ((cfg.mu, cfg.sigma),
    match cfg.refractory_prior with
    | some ms => ms
    | none => (cfg.mu, cfg.sigma))

/-- The per-edge prior pair selection shared by `_collapsed_sample_AW`,
`_slice_sample_W` and `_collapsed_sample_AW_with_prior`: the refractory
pair on the diagonal, the standard pair off it. -/
def selected_prior_pair (std ref : α × α) (n_pre n_post : ℕ) : α × α :=
  if n_pre = n_post then ref else std

/-! ### The external HMC primitive (modelled from the spec)

The `hmc` module is imported by `inference/gibbs.py` but is not among the
repository sources. -/

def vaddF (a b : List (FV α)) : List (FV α) := List.zipWith FV.fadd a b

def vsubF (a b : List (FV α)) : List (FV α) := List.zipWith FV.fsub a b

def vscaleF (c : FV α) (v : List (FV α)) : List (FV α) := v.map (FV.fmul c)

/-- Modelled from the spec: the leapfrog dynamics of the HMC proposal
primitive, a fixed number of position/momentum half-steps driven by the
gradient of the negative log probability. -/
def leapfrogF (gradNll : List (FV α) → List (FV α)) (eps : FV α) :
    ℕ → List (FV α) × List (FV α) → List (FV α) × List (FV α)
  | 0, qp => qp
  | k + 1, qp =>
      let p1 := vsubF qp.2 (vscaleF (FV.fdiv eps (FV.fin 2)) (gradNll qp.1))
      let q1 := vaddF qp.1 (vscaleF eps p1)
      let p2 := vsubF p1 (vscaleF (FV.fdiv eps (FV.fin 2)) (gradNll q1))
      leapfrogF gradNll eps k (q1, p2)

/-- Modelled from the spec: the external `hmc` primitive (module `hmc`,
not among the repository sources): it resamples a standard normal
momentum (the draw `p0`), simulates `n_steps` leapfrog steps and applies
the Metropolis accept/reject choice between the end and start positions
(`accept` is the outcome of that draw).  The updated step size and
acceptance-rate estimate it also returns are stored on the update object,
not in the parameter state, and are not modelled. -/
def hmc (gradNll : List (FV α) → List (FV α)) (step_sz : FV α) (n_steps : ℕ)
    (q0 p0 : List (FV α)) (accept : Bool) : List (FV α) :=
  if accept then (leapfrogF gradNll step_sz n_steps (q0, p0)).1 else q0

/-! ### The other update rules -/

/-- Embedding of `HmcGlmUpdate.update`: the pack / `hmc` / unpack
pipeline that produces the new GLM parameter record of unit `n` (built
from `extract_vars`, `packdict`, the external `hmc` call and `set_vars`,
all reading but not writing the rest of the state) is the parameter
`glm_step`; the only write to the shared state is
`x['glms'][n] = xn['glm']`. -/
def hmc_glm_update (glm_step : ℕ → FullState α G → G) (x : FullState α G)
    (n : ℕ) : FullState α G :=
  { x with glms := x.glms.set n (glm_step n x) }

/-- Embedding of `GibbsNetworkColumnUpdate._sample_column_of_A`: for each
source unit in order, force `A[n_pre, n_post]` to 0 and to 1, evaluate
the joint log probability (network prior plus unit likelihood, the
external evaluation `_lp_A` is the parameter `evalJoint`), and write the
sampled indicator.  The two debugger breakpoints after the draw only read
the state.  (`A` is always present in the states modelled here, so the
`if 'A' in ...` guard is taken.) -/
def sample_column_of_A (evalJoint : FullState α G → FV α)
    (sampler : List (FV α) → ℕ) (N n_post : ℕ) (x : FullState α G) :
    FullState α G :=
  (List.range N).foldl (fun s n_pre =>
    let s0 := setAentry s n_pre n_post 0
    let log_pr_noA := evalJoint s0
    let s1 := setAentry s0 n_pre n_post 1
    let log_pr_A := evalJoint s1
    setAentry s1 n_pre n_post (sampler [log_pr_noA, log_pr_A])) x

/-- Embedding of `GibbsNetworkColumnUpdate._sample_column_of_W`: HMC on
the whole flattened weight array with 10 leapfrog steps (the gradient is
masked to the target column inside `_grad_lp_W`, which is part of the
gradient oracle `gradNll` here); the result is written back as the new
`W`. -/
def sample_column_of_W (gradNll : List (FV α) → List (FV α)) (step_sz : FV α)
    (p0 : List (FV α)) (accept : Bool) (x : FullState α G) : FullState α G :=
  { x with W := hmc gradNll step_sz 10 x.W p0 accept }

/-- Embedding of `GibbsNetworkColumnUpdate.update`: sample the column of
`A`, then the weights. -/
def gibbs_network_column_update (evalJoint : FullState α G → FV α)
    (sampler : List (FV α) → ℕ) (gradNll : List (FV α) → List (FV α))
    (step_sz : FV α) (p0 : List (FV α)) (accept : Bool) (N : ℕ)
    (x : FullState α G) (n : ℕ) : FullState α G :=
  sample_column_of_W gradNll step_sz p0 accept
    (sample_column_of_A evalJoint sampler N n x)

/-- Model of `np.ravel` on a row-major matrix. -/
def ravelF (m : List (List (FV α))) : List (FV α) := m.flatten

/-- Row-major `np.reshape` to `(rows, cols)` (callers guard the size). -/
def reshapeF (rows cols : ℕ) (v : List (FV α)) : List (List (FV α)) :=
  (List.range rows).map fun i => (List.range cols).map fun j =>
    v.getD (i * cols + j) (FV.fin 0)

/-- Embedding of `LatentDistanceNetworkUpdate.update`: if the graph has
latent locations, run HMC (10 steps) on the raveled coordinate matrix and
reshape the result back to the preprocessed `L_shape = (rows, cols)`;
`np.reshape` raises on a size mismatch, modelled as `none`.  States
without `L` are returned unchanged. -/
def latent_distance_update (gradNll : List (FV α) → List (FV α))
    (step_sz : FV α) (p0 : List (FV α)) (accept : Bool) (rows cols : ℕ)
    (x : FullState α G) : Option (FullState α G) :=
  match x.L with
  | none => some x
  | some L =>
      let L1 := hmc gradNll step_sz 10 (ravelF L) p0 accept
      if L1.length = rows * cols then
        some { x with L := some (reshapeF rows cols L1) }
      else none

/-! ### The trajectory of `gibbs_sample`

`gibbs_sample` seeds `x_smpls = [x0]`, sets `x = x0` (the same object),
mutates `x` in place once per sweep through the update rules, and appends
`copy.deepcopy(x)` after each sweep.  We model object identity with a
heap of cells: cell 0 is the live state (mutated in place by every
sweep); each deepcopy appends a fresh cell holding the value at that
moment.  The trajectory `x_smpls` is then the list of cell indices
`[0, 1, ..., n]`: its initial entry references the live cell itself.  The
in-place effect of one full sweep (all parallel rules over all units,
then the serial rules) is the abstract function `sweep`. -/

def gibbsHeap {S : Type} (sweep : S → S) (x0 : S) : ℕ → List S
  | 0 => [x0]
  | n + 1 =>
      let h := gibbsHeap sweep x0 n
      let live := sweep (h.headD x0)
      live :: (h.tail ++ [live])

/-- Reading trajectory entry `k` after `n` sweeps: entry `k` references
heap cell `k` (cell 0 being the live state). -/
def trajEntry {S : Type} (sweep : S → S) (x0 : S) (n k : ℕ) : S :=
  (gibbsHeap sweep x0 n).getD k x0

/-- The interpolation grid as claim C2 describes it: tail-bin endpoints
six sigma beyond the outermost quadrature node on each side (to be
compared with the `W_centers` of the source, whose endpoints are six
sigma away from the prior mean). -/
def W_centers_claimed (wnns : List α) (sigma_w : α) : List α :=
  [wnns.headD 0 - 6 * sigma_w] ++ midpoints wnns ++ [wnns.getLastD 0 + 6 * sigma_w]

/-! ## Theorems -/

/-! ### Helper lemmas on lists, matrices and extended values -/

theorem length_set2 {β : Type} (m : List (List β)) (i j : ℕ) (v : β) :
    (set2 m i j v).length = m.length := by
  simp [set2]

theorem list_set_getD_self {β : Type} (l : List β) (i : ℕ) (d : β)
    (h : i < l.length) : l.set i (l.getD i d) = l := by
  induction l generalizing i with
  | nil => simp at h
  | cons a t ih =>
    cases i with
    | zero => simp [List.getD]
    | succ k =>
      have hk : k < t.length := by simpa using h
      show a :: t.set k ((a :: t).getD (k + 1) d) = a :: t
      rw [show (a :: t).getD (k + 1) d = t.getD k d from rfl, ih k hk]

theorem list_set_getD_self' {β : Type} (l : List β) (i : ℕ) (d : β) :
    l.set i (l.getD i d) = l := by
  by_cases h : i < l.length
  · exact list_set_getD_self l i d h
  · exact List.set_eq_of_length_le (by omega)

theorem getD_set2 {β : Type} (m : List (List β)) (i j : ℕ) (v : β)
    (hi : i < m.length) :
    (set2 m i j v).getD i [] = (m.getD i []).set j v := by
  simp only [set2, List.getD_eq_getElem?_getD]
  rw [List.getElem?_set_self (by simpa using hi)]
  rfl

theorem set2_get2_self {β : Type} (m : List (List β)) (i j : ℕ) (d : β) :
    set2 m i j (get2 m i j d) = m := by
  by_cases hi : i < m.length
  · by_cases hj : j < (m.getD i []).length
    · rw [set2, get2, list_set_getD_self _ _ _ hj, list_set_getD_self _ _ _ hi]
    · have hle : (m.getD i []).length ≤ j := by omega
      rw [set2, get2, List.set_eq_of_length_le hle, list_set_getD_self _ _ _ hi]
  · have hle : m.length ≤ i := by omega
    rw [set2, List.set_eq_of_length_le hle]

theorem set2_set2_same {β : Type} (m : List (List β)) (i j : ℕ) (v w : β) :
    set2 (set2 m i j v) i j w = set2 m i j w := by
  by_cases hi : i < m.length
  · conv_lhs => rw [set2, getD_set2 m i j v hi]
    rw [List.set_set, set2, List.set_set]
    simp [set2]
  · have hle : m.length ≤ i := by omega
    simp only [set2]
    rw [List.set_eq_of_length_le hle]

/-! ### C10 — the likelihood probes are state-preserving -/

/-- C10: for every likelihood evaluator, edge `(n_pre, n_post)`, probe
weight and state, `_glm_ll_A` and `_glm_ll_noA` restore `A[i, j]` and
`W[i, j]` to their pre-call values, leaving the parameter state exactly
as it was. -/
theorem glm_ll_probes_state_preserving (evalLL : FullState α G → FV α)
    (n_pre n_post : ℕ) (w : FV α) (x : FullState α G) :
    (glm_ll_A evalLL n_pre n_post w x).2 = x ∧
    (glm_ll_noA evalLL n_pre n_post x).2 = x := by
  obtain ⟨A, W, L, glms⟩ := x
  constructor
  · simp only [glm_ll_A, setAentry, setWentry, getA, getW, flatIdx,
      length_set2, List.set_set, set2_set2_same, set2_get2_self,
      list_set_getD_self']
  · simp only [glm_ll_noA, setAentry, getA, set2_set2_same, set2_get2_self]

/-! ### C9 — the GLM HMC update writes only unit `n`'s record -/

/-- C9: for every GLM-record pipeline, state and unit `n`,
`HmcGlmUpdate.update` leaves the adjacency matrix, the weight matrix, the
latent locations and every other unit's GLM record unchanged: the only
write is `x['glms'][n]`. -/
theorem hmc_glm_update_frame (glm_step : ℕ → FullState α G → G)
    (x : FullState α G) (n m : ℕ) (h : m ≠ n) :
    (hmc_glm_update glm_step x n).A = x.A ∧
    (hmc_glm_update glm_step x n).W = x.W ∧
    (hmc_glm_update glm_step x n).L = x.L ∧
    (hmc_glm_update glm_step x n).glms[m]? = x.glms[m]? ∧
    (hmc_glm_update glm_step x n).glms.length = x.glms.length := by
  refine ⟨rfl, rfl, rfl, ?_, by simp [hmc_glm_update]⟩
  simp only [hmc_glm_update]
  exact List.getElem?_set_ne (Ne.symm h)

/-- Witness for C9 at a concrete two-unit state. -/
theorem hmc_glm_update_frame_witness :
    (1 : ℕ) ≠ 0 ∧
    ((hmc_glm_update (α := ℚ) (G := ℕ) (fun _ _ => 7)
        ⟨[[1, 0], [0, 1]], [FV.fin 0, FV.fin 0, FV.fin 0, FV.fin 0], none, [5, 6]⟩ 0).A =
      [[1, 0], [0, 1]] ∧
    (hmc_glm_update (α := ℚ) (G := ℕ) (fun _ _ => 7)
        ⟨[[1, 0], [0, 1]], [FV.fin 0, FV.fin 0, FV.fin 0, FV.fin 0], none, [5, 6]⟩ 0).W =
      [FV.fin 0, FV.fin 0, FV.fin 0, FV.fin 0] ∧
    (hmc_glm_update (α := ℚ) (G := ℕ) (fun _ _ => 7)
        ⟨[[1, 0], [0, 1]], [FV.fin 0, FV.fin 0, FV.fin 0, FV.fin 0], none, [5, 6]⟩ 0).L =
      none ∧
    (hmc_glm_update (α := ℚ) (G := ℕ) (fun _ _ => 7)
        ⟨[[1, 0], [0, 1]], [FV.fin 0, FV.fin 0, FV.fin 0, FV.fin 0], none, [5, 6]⟩ 0).glms[1]? =
      [5, 6][1]? ∧
    (hmc_glm_update (α := ℚ) (G := ℕ) (fun _ _ => 7)
        ⟨[[1, 0], [0, 1]], [FV.fin 0, FV.fin 0, FV.fin 0, FV.fin 0], none, [5, 6]⟩ 0).glms.length =
      [5, 6].length) := by
  refine ⟨by decide, ?_⟩
  have h := hmc_glm_update_frame (α := ℚ) (G := ℕ) (fun _ _ => 7)
    ⟨[[1, 0], [0, 1]], [FV.fin 0, FV.fin 0, FV.fin 0, FV.fin 0], none, [5, 6]⟩ 0 1 (by decide)
  exact h

/-! ### C7 — the trajectory of `gibbs_sample` -/

theorem gibbsHeap_length {S : Type} (sweep : S → S) (x0 : S) (n : ℕ) :
    (gibbsHeap sweep x0 n).length = n + 1 := by
  induction n with
  | zero => rfl
  | succ k ih =>
    simp only [gibbsHeap, List.length_cons, List.length_append, List.length_tail,
      List.length_nil, ih]
    omega

theorem gibbsHeap_head? {S : Type} (sweep : S → S) (x0 : S) (n : ℕ) :
    (gibbsHeap sweep x0 n).head? = some (sweep^[n] x0) := by
  induction n with
  | zero => rfl
  | succ k ih =>
    show some (sweep ((gibbsHeap sweep x0 k).headD x0)) = _
    have hh : (gibbsHeap sweep x0 k).headD x0 = sweep^[k] x0 := by
      cases he : gibbsHeap sweep x0 k with
      | nil => rw [he] at ih; simp at ih
      | cons a t => rw [he] at ih; simpa using ih
    rw [hh, Function.iterate_succ_apply']

theorem gibbsHeap_headD {S : Type} (sweep : S → S) (x0 : S) (n : ℕ) :
    (gibbsHeap sweep x0 n).headD x0 = sweep^[n] x0 := by
  have h := gibbsHeap_head? sweep x0 n
  cases he : gibbsHeap sweep x0 n with
  | nil => rw [he] at h; simp at h
  | cons a t => rw [he] at h; simpa using h

theorem gibbsHeap_getD_snapshot {S : Type} (sweep : S → S) (x0 : S) {n k : ℕ}
    (h1 : 1 ≤ k) (h2 : k ≤ n) :
    (gibbsHeap sweep x0 n).getD k x0 = sweep^[k] x0 := by
  induction n with
  | zero => omega
  | succ m ih =>
    obtain ⟨j, rfl⟩ : ∃ j, k = j + 1 := ⟨k - 1, by omega⟩
    show ((gibbsHeap sweep x0 m).tail ++
      [sweep ((gibbsHeap sweep x0 m).headD x0)]).getD j x0 = _
    have htl : (gibbsHeap sweep x0 m).tail.length = m := by
      simp [List.length_tail, gibbsHeap_length]
    rcases Nat.lt_or_ge j m with hj | hj
    · rw [List.getD_eq_getElem?_getD, List.getElem?_append, if_pos (by omega)]
      have : (gibbsHeap sweep x0 m).tail[j]? = (gibbsHeap sweep x0 m)[j + 1]? := by
        cases hh : gibbsHeap sweep x0 m with
        | nil => simp [hh] at htl; omega
        | cons a t => simp
      rw [this, ← List.getD_eq_getElem?_getD _ _ x0, ih (by omega)]
    · have hj' : j = m := by omega
      subst hj'
      rw [List.getD_eq_getElem?_getD, List.getElem?_append, if_neg (by omega), htl]
      simp only [Nat.sub_self, List.getElem?_cons_zero, Option.getD_some]
      rw [gibbsHeap_headD]
      exact (Function.iterate_succ_apply' sweep j x0).symm

/-- C7 (amended): every post-sweep trajectory entry (`1 ≤ k`) is an
independent snapshot: its value after any later number of sweeps `n'` is
still the state reached after sweep `k`, unaffected by subsequent
in-place mutation of the live state; the initial entry (`k = 0`),
however, references the live state itself and always reads as the state
after the final sweep. -/
theorem gibbs_trajectory_snapshots {S : Type} (sweep : S → S) (x0 : S)
    (n n' k : ℕ) (h1 : 1 ≤ k) (h2 : k ≤ n) (h3 : n ≤ n') :
    trajEntry sweep x0 n' k = sweep^[k] x0 ∧
    trajEntry sweep x0 n k = sweep^[k] x0 ∧
    trajEntry sweep x0 n' 0 = sweep^[n'] x0 := by
  refine ⟨gibbsHeap_getD_snapshot sweep x0 h1 (by omega),
    gibbsHeap_getD_snapshot sweep x0 h1 h2, ?_⟩
  show (gibbsHeap sweep x0 n').getD 0 x0 = _
  cases hh : gibbsHeap sweep x0 n' with
  | nil =>
    have := gibbsHeap_length sweep x0 n'
    rw [hh] at this
    simp at this
  | cons a t =>
    have := gibbsHeap_headD sweep x0 n'
    rw [hh] at this
    simpa using this

/-- Witness for C7 (amended) at `sweep = (· + 1)`, three sweeps. -/
theorem gibbs_trajectory_snapshots_witness :
    (1 ≤ 2 ∧ 2 ≤ 2 ∧ 2 ≤ 3) ∧
    (trajEntry (fun s => s + 1) (0 : ℕ) 3 2 = (fun s => s + 1)^[2] 0 ∧
     trajEntry (fun s => s + 1) (0 : ℕ) 2 2 = (fun s => s + 1)^[2] 0 ∧
     trajEntry (fun s => s + 1) (0 : ℕ) 3 0 = (fun s => s + 1)^[3] 0) :=
  ⟨⟨by decide, by decide, by decide⟩,
    gibbs_trajectory_snapshots (fun s => s + 1) 0 2 3 2
      (by decide) (by decide) (by decide)⟩

/-- C7 counterexample: the initial-state trajectory entry is not an
independent deep copy — after one further sweep of `s := s + 1` from
`x0 = 0` it reads 1, no longer the initial state 0 it read before the
sweep, because it references the live, in-place-mutated cell. -/
theorem gibbs_trajectory_initial_entry_mutates :
    trajEntry (fun s => s + 1) (0 : ℕ) 1 0 ≠ trajEntry (fun s => s + 1) (0 : ℕ) 0 0 := by
  decide

/-! ### C6 — the refractory prior pair -/

/-- C6 counterexample: when the weight model has no `refractory_prior`
attribute, `preprocess` falls back to the standard pair, so the pair a
self-loop uses is identical (not disjoint) to the off-diagonal pair. -/
theorem refractory_fallback_counterexample :
    (preprocess_weight_priors (α := ℚ) ⟨0, 1, none⟩).2 =
      (preprocess_weight_priors (α := ℚ) ⟨0, 1, none⟩).1 ∧
    selected_prior_pair (preprocess_weight_priors (α := ℚ) ⟨0, 1, none⟩).1
        (preprocess_weight_priors (α := ℚ) ⟨0, 1, none⟩).2 2 2 =
      selected_prior_pair (preprocess_weight_priors (α := ℚ) ⟨0, 1, none⟩).1
        (preprocess_weight_priors (α := ℚ) ⟨0, 1, none⟩).2 0 1 := by
  decide

/-- C6 (amended): a self-loop edge selects the refractory pair and an
off-diagonal edge the standard pair; the refractory pair equals the
configured `refractory_prior` when one is present and falls back to the
standard `(mu, sigma)` when none is, so the two pairs are disjoint only
when a distinct refractory prior is configured.  Accordingly, the
collapsed per-edge step on a self-loop does not depend on the standard
pair at all, and on an off-diagonal edge it does not depend on the
refractory pair. -/
theorem refractory_prior_selection (cfg : WeightPriorCfg α) (i j : ℕ) :
    (i = j →
      selected_prior_pair (preprocess_weight_priors cfg).1
        (preprocess_weight_priors cfg).2 i j = (preprocess_weight_priors cfg).2) ∧
    (i ≠ j →
      selected_prior_pair (preprocess_weight_priors cfg).1
        (preprocess_weight_priors cfg).2 i j = (preprocess_weight_priors cfg).1) ∧
    (∀ p, cfg.refractory_prior = some p → (preprocess_weight_priors cfg).2 = p) ∧
    (cfg.refractory_prior = none →
      (preprocess_weight_priors cfg).2 = (cfg.mu, cfg.sigma)) ∧
    (∀ (evalLL : FullState α G → FV α) (lse : List (FV α) → FV α)
        (flog : α → FV α) (sampler : List (FV α) → ℕ) (sqrt2 sqrtpi : α)
        (ghx ghw : List α) (mu2 sigma2 : α) (p_A : ℕ → ℕ → α) (uW z : α)
        (x : FullState α G), i = j →
      collapsed_sample_AW evalLL lse flog sampler sqrt2 sqrtpi ghx ghw
          cfg.mu cfg.sigma (preprocess_weight_priors cfg).2.1
          (preprocess_weight_priors cfg).2.2 p_A uW z i j x =
        collapsed_sample_AW evalLL lse flog sampler sqrt2 sqrtpi ghx ghw
          mu2 sigma2 (preprocess_weight_priors cfg).2.1
          (preprocess_weight_priors cfg).2.2 p_A uW z i j x) ∧
    (∀ (evalLL : FullState α G → FV α) (lse : List (FV α) → FV α)
        (flog : α → FV α) (sampler : List (FV α) → ℕ) (sqrt2 sqrtpi : α)
        (ghx ghw : List α) (mr2 sr2 : α) (p_A : ℕ → ℕ → α) (uW z : α)
        (x : FullState α G), i ≠ j →
      collapsed_sample_AW evalLL lse flog sampler sqrt2 sqrtpi ghx ghw
          cfg.mu cfg.sigma (preprocess_weight_priors cfg).2.1
          (preprocess_weight_priors cfg).2.2 p_A uW z i j x =
        collapsed_sample_AW evalLL lse flog sampler sqrt2 sqrtpi ghx ghw
          cfg.mu cfg.sigma mr2 sr2 p_A uW z i j x) := by
  refine ⟨fun h => by simp [selected_prior_pair, h],
    fun h => by simp [selected_prior_pair, h],
    fun p hp => by simp [preprocess_weight_priors, hp],
    fun hp => by simp [preprocess_weight_priors, hp], ?_, ?_⟩
  · intro evalLL lse flog sampler sqrt2 sqrtpi ghx ghw mu2 sigma2 p_A uW z x hij
    subst hij
    simp [collapsed_sample_AW]
  · intro evalLL lse flog sampler sqrt2 sqrtpi ghx ghw mr2 sr2 p_A uW z x hij
    simp [collapsed_sample_AW, hij]

/-! ### C1 — the collapsed marginal likelihood via Gauss-Hermite
quadrature -/

theorem guardNaN_eq_self {v : FV α} (h : v ≠ FV.nan) : guardNaN v = v := by
  cases v <;> simp_all [guardNaN, FV.isnan]

theorem guardNaN_ne_nan (v : FV α) : guardNaN v ≠ FV.nan := by
  cases v <;> simp [guardNaN, FV.isnan]

theorem weighted_log_L_no_guard (flog : α → FV α) (sqrtpi : α)
    (ghw : List α) (logL : List (FV α))
    (h : ∀ p ∈ logL.zip ghw, FV.fadd p.1 (flog (p.2 / sqrtpi)) ≠ FV.nan) :
    weighted_log_L flog sqrtpi ghw logL =
      List.zipWith (fun l g => FV.fadd l (flog (g / sqrtpi))) logL ghw := by
  induction logL generalizing ghw with
  | nil => simp [weighted_log_L]
  | cons l t ih =>
    cases ghw with
    | nil => simp [weighted_log_L]
    | cons g gw =>
      have h1 := h (l, g) (by simp)
      show guardNaN (FV.fadd l (flog (g / sqrtpi))) :: weighted_log_L flog sqrtpi gw t = _
      rw [guardNaN_eq_self h1, ih gw (fun p hp => h p (by simp [hp]))]
      rfl

/-- C1: for every candidate edge, the collapsed update computes the
marginal likelihood under edge presence by degree-20 Gauss-Hermite
quadrature: the abscissae are transformed to weight values
`w_k = sqrt(2) * sigma * x_k + mu`, `logL_k` is the GLM likelihood probe
with `A[i, j] = 1` and `W[i, j] = w_k`, and
`log_G = logsumexp_k (logL_k + log(weight_k / sqrt(pi)))` — provided no
weighted term is NaN (the NaN guard of C3 is the identity then). -/
theorem collapsed_logG_gauss_hermite
    (evalLL : FullState α G → FV α) (lse : List (FV α) → FV α)
    (flog : α → FV α) (sqrt2 sqrtpi sigma mu : α) (ghx ghw : List α)
    (n_pre n_post : ℕ) (x : FullState α G)
    (hdeg : ghx.length = DEG_GAUSS_HERMITE)
    (hnan : ∀ p ∈ (quad_log_L (fun w => (glm_ll_A evalLL n_pre n_post (FV.fin w) x).1)
        (W_nns sqrt2 sigma mu ghx)).zip ghw,
      FV.fadd p.1 (flog (p.2 / sqrtpi)) ≠ FV.nan) :
    log_G lse flog sqrtpi ghw
        (quad_log_L (fun w => (glm_ll_A evalLL n_pre n_post (FV.fin w) x).1)
          (W_nns sqrt2 sigma mu ghx)) =
      lse (List.zipWith
        (fun c g => FV.fadd
          ((glm_ll_A evalLL n_pre n_post (FV.fin (sqrt2 * sigma * c + mu)) x).1)
          (flog (g / sqrtpi))) ghx ghw) ∧
    (W_nns sqrt2 sigma mu ghx).length = DEG_GAUSS_HERMITE ∧
    DEG_GAUSS_HERMITE = 20 := by
  refine ⟨?_, by simp [W_nns, hdeg], rfl⟩
  rw [log_G, weighted_log_L_no_guard _ _ _ _ hnan]
  congr 1
  rw [quad_log_L, W_nns, List.map_map]
  exact List.zipWith_map_left ghx ghw _ _

/-- Witness for C1 at a concrete degree-20 instantiation. -/
theorem collapsed_logG_gauss_hermite_witness :
    ((List.replicate 20 (0 : ℚ)).length = DEG_GAUSS_HERMITE ∧
      ∀ p ∈ (quad_log_L
          (fun w => (glm_ll_A (α := ℚ) (G := Unit) (fun _ => FV.fin 0) 0 0 (FV.fin w)
            ⟨[[0]], [FV.fin 0], none, [()]⟩).1)
          (W_nns 1 1 0 (List.replicate 20 (0 : ℚ)))).zip (List.replicate 20 (1 : ℚ)),
        FV.fadd p.1 ((fun q => FV.fin q) (p.2 / 1)) ≠ FV.nan) ∧
    log_G (fun _ => FV.fin 0) (fun q => FV.fin q) 1 (List.replicate 20 (1 : ℚ))
        (quad_log_L
          (fun w => (glm_ll_A (α := ℚ) (G := Unit) (fun _ => FV.fin 0) 0 0 (FV.fin w)
            ⟨[[0]], [FV.fin 0], none, [()]⟩).1)
          (W_nns 1 1 0 (List.replicate 20 (0 : ℚ)))) =
      (fun _ => FV.fin (0 : ℚ)) (List.zipWith
        (fun c g => FV.fadd
          ((glm_ll_A (α := ℚ) (G := Unit) (fun _ => FV.fin 0) 0 0
            (FV.fin (1 * 1 * c + 0)) ⟨[[0]], [FV.fin 0], none, [()]⟩).1)
          ((fun q => FV.fin q) (g / 1))) (List.replicate 20 (0 : ℚ))
          (List.replicate 20 (1 : ℚ))) :=
  ⟨⟨by decide, by decide⟩,
    (collapsed_logG_gauss_hermite (fun _ => FV.fin 0) (fun _ => FV.fin 0)
      (fun q => FV.fin q) 1 1 1 0 (List.replicate 20 0) (List.replicate 20 1)
      0 0 ⟨[[0]], [FV.fin 0], none, [()]⟩ (by decide) (by decide)).1⟩

/-! ### C2 — the piecewise weight posterior and its inverse CDF -/

theorem midpoints_cons_cons (a b : α) (t : List α) :
    midpoints (a :: b :: t) = (a + b) / 2 :: midpoints (b :: t) := rfl

theorem adjacentDiffs_cons_cons (a b : α) (t : List α) :
    adjacentDiffs (a :: b :: t) = (b - a) :: adjacentDiffs (b :: t) := rfl

theorem length_midpoints (l : List α) : (midpoints l).length = l.length - 1 := by
  cases l with
  | nil => rfl
  | cons a t => simp [midpoints, List.length_zip]

theorem length_adjacentDiffs (l : List α) :
    (adjacentDiffs l).length = l.length - 1 := by
  cases l with
  | nil => rfl
  | cons a t => simp [adjacentDiffs, List.length_zip]

theorem midpoints_getD (l : List α) (i : ℕ) (h : i + 1 < l.length) :
    (midpoints l).getD i 0 = (l.getD i 0 + l.getD (i + 1) 0) / 2 := by
  induction l generalizing i with
  | nil => simp at h
  | cons a t ih =>
    cases t with
    | nil => simp at h
    | cons b t' =>
      cases i with
      | zero => rfl
      | succ k =>
        rw [midpoints_cons_cons]
        exact ih k (by simpa using h)

theorem adjacentDiffs_getD (l : List α) (i : ℕ) (h : i + 1 < l.length) :
    (adjacentDiffs l).getD i 0 = l.getD (i + 1) 0 - l.getD i 0 := by
  induction l generalizing i with
  | nil => simp at h
  | cons a t ih =>
    cases t with
    | nil => simp at h
    | cons b t' =>
      cases i with
      | zero => rfl
      | succ k =>
        rw [adjacentDiffs_cons_cons]
        exact ih k (by simpa using h)

theorem drop_take_two {β : Type} (l : List β) (i : ℕ) (d : β)
    (h : i + 1 < l.length) :
    (l.drop i).take 2 = [l.getD i d, l.getD (i + 1) d] := by
  induction l generalizing i with
  | nil => simp at h
  | cons a t ih =>
    cases i with
    | zero =>
      cases t with
      | nil => simp at h
      | cons b t' => rfl
    | succ k => exact ih k (by simpa using h)

theorem zipWith_getD {β γ δ : Type} (f : β → γ → δ) (l1 : List β)
    (l2 : List γ) (i : ℕ) (d : δ) (d1 : β) (d2 : γ)
    (h1 : i < l1.length) (h2 : i < l2.length) :
    (List.zipWith f l1 l2).getD i d = f (l1.getD i d1) (l2.getD i d2) := by
  rw [List.getD_eq_getElem _ _ (by simp [List.length_zipWith]; omega),
    List.getElem_zipWith, List.getD_eq_getElem _ _ h1, List.getD_eq_getElem _ _ h2]

theorem map_getD {β γ : Type} (f : β → γ) (l : List β) (i : ℕ) (d : γ)
    (d1 : β) (h : i < l.length) :
    (l.map f).getD i d = f (l.getD i d1) := by
  rw [List.getD_eq_getElem _ _ (by simpa using h), List.getElem_map,
    List.getD_eq_getElem _ _ h]

/-- C2 counterexample: the tail-bin endpoints of the source grid sit six
sigma from the prior mean, not six sigma beyond the outermost quadrature
node: on a grid of transformed nodes reaching plus or minus 7.6 (with
`mu = 0`, `sigma = 1`) the source endpoints are plus or minus 6 — inside
the node range — while the claimed endpoints would be plus or minus
13.6. -/
theorem tail_bin_endpoints_counterexample :
    (W_centers ((List.range 20).map fun k => ((k : ℚ) - 19 / 2) * (4 / 5)) 0 1).headD 0 ≠
      (W_centers_claimed ((List.range 20).map fun k => ((k : ℚ) - 19 / 2) * (4 / 5)) 1).headD 0 ∧
    (W_centers ((List.range 20).map fun k => ((k : ℚ) - 19 / 2) * (4 / 5)) 0 1).getLastD 0 ≠
      (W_centers_claimed ((List.range 20).map fun k => ((k : ℚ) - 19 / 2) * (4 / 5)) 1).getLastD 0 ∧
    (W_centers ((List.range 20).map fun k => ((k : ℚ) - 19 / 2) * (4 / 5)) 0 1).headD 0 =
      0 - 6 * 1 ∧
    (W_centers_claimed ((List.range 20).map fun k => ((k : ℚ) - 19 / 2) * (4 / 5)) 1).headD 0 =
      -19 / 2 * (4 / 5) - 6 * 1 := by
  with_unfolding_all decide

/-- C2 (amended): the weight draw on a sampled edge is inverse-CDF
interpolation of `log(uniform)` against a log CDF over the quadrature
nodes plus two tail bins whose endpoints are `mu - 6 sigma` and
`mu + 6 sigma` (six sigma from the prior mean, not beyond the outermost
node); interior grid points are node midpoints, per-bin log density
averages adjacent log posteriors via `logsumexp - log 2`, log bin width
is added, the masses are normalised by their `logsumexp`, and the log CDF
runs from `-inf` to `0` over the cumulative normalised masses. -/
theorem sample_W_construction (lse : List (FV α) → FV α) (flog : α → FV α)
    (logL : List (FV α)) (wnns : List α) (mu sigma : α) (u : α)
    (hw : wnns.length = DEG_GAUSS_HERMITE)
    (hl : logL.length = DEG_GAUSS_HERMITE) :
    sample_W lse flog logL wnns mu sigma u =
      interpFV (flog u) (log_F_W lse flog (log_posterior_W wnns mu sigma logL) wnns)
        ((W_centers wnns mu sigma).map FV.fin) ∧
    (W_centers wnns mu sigma).length = DEG_GAUSS_HERMITE + 1 ∧
    (log_F_W lse flog (log_posterior_W wnns mu sigma logL) wnns).length =
      DEG_GAUSS_HERMITE + 1 ∧
    (W_centers wnns mu sigma).headD 0 = mu - 6 * sigma ∧
    (W_centers wnns mu sigma).getLastD 0 = mu + 6 * sigma ∧
    (∀ i, i + 1 < DEG_GAUSS_HERMITE →
      (W_centers wnns mu sigma).getD (i + 1) 0 =
        (wnns.getD i 0 + wnns.getD (i + 1) 0) / 2) ∧
    (∀ i, i < DEG_GAUSS_HERMITE →
      (log_posterior_W wnns mu sigma logL).getD i FV.nan =
        FV.fadd (FV.fin (-(1 / 2) / sigma ^ 2 * (wnns.getD i 0 - mu) ^ 2))
          (logL.getD i FV.nan)) ∧
    (∀ i, i + 1 < DEG_GAUSS_HERMITE →
      (log_posterior_avg lse flog (log_posterior_W wnns mu sigma logL)).getD i FV.nan =
        FV.fsub (lse [(log_posterior_W wnns mu sigma logL).getD i FV.nan,
          (log_posterior_W wnns mu sigma logL).getD (i + 1) FV.nan]) (flog 2)) ∧
    (∀ i, i + 1 < DEG_GAUSS_HERMITE →
      (log_posterior_mass lse flog (log_posterior_W wnns mu sigma logL) wnns).getD i FV.nan =
        FV.fadd
          ((log_posterior_avg lse flog (log_posterior_W wnns mu sigma logL)).getD i FV.nan)
          (flog (wnns.getD (i + 1) 0 - wnns.getD i 0))) ∧
    (∀ i, i + 1 < DEG_GAUSS_HERMITE →
      (log_posterior_mass_norm lse flog (log_posterior_W wnns mu sigma logL) wnns).getD i FV.nan =
        FV.fsub
          ((log_posterior_mass lse flog (log_posterior_W wnns mu sigma logL) wnns).getD i FV.nan)
          (lse (log_posterior_mass lse flog (log_posterior_W wnns mu sigma logL) wnns))) ∧
    (log_F_W lse flog (log_posterior_W wnns mu sigma logL) wnns).getD 0 FV.nan = FV.ninf ∧
    (log_F_W lse flog (log_posterior_W wnns mu sigma logL) wnns).getD
      DEG_GAUSS_HERMITE FV.nan = FV.fin 0 ∧
    (∀ i, 1 ≤ i → i < DEG_GAUSS_HERMITE →
      (log_F_W lse flog (log_posterior_W wnns mu sigma logL) wnns).getD i FV.nan =
        lse ((log_posterior_mass_norm lse flog (log_posterior_W wnns mu sigma logL) wnns).take i)) := by
  have hlp : (log_posterior_W wnns mu sigma logL).length = DEG_GAUSS_HERMITE := by
    simp [log_posterior_W, log_prior_W, List.length_zipWith, hw, hl]
  have havg : (log_posterior_avg lse flog (log_posterior_W wnns mu sigma logL)).length =
      DEG_GAUSS_HERMITE - 1 := by
    simp [log_posterior_avg]
  have hmass : (log_posterior_mass lse flog (log_posterior_W wnns mu sigma logL) wnns).length =
      DEG_GAUSS_HERMITE - 1 := by
    simp [log_posterior_mass, List.length_zipWith, length_adjacentDiffs, W_bin_sizes, havg, hw]
  have hpr : (log_prior_W wnns mu sigma).length = DEG_GAUSS_HERMITE := by
    simp [log_prior_W, hw]
  have hmids : (midpoints wnns).length = DEG_GAUSS_HERMITE - 1 := by
    rw [length_midpoints, hw]
  have hrange : (List.range' 1 (DEG_GAUSS_HERMITE - 1)).length =
      DEG_GAUSS_HERMITE - 1 := by
    simp
  have hdeg2 : 2 ≤ DEG_GAUSS_HERMITE := by decide
  refine ⟨rfl, ?_, ?_, rfl, ?_, ?_, ?_, ?_, ?_, ?_, rfl, ?_, ?_⟩
  · simp only [W_centers, List.length_append, hmids, List.length_singleton]
    omega
  · rw [log_F_W]
    simp only [List.length_cons, List.length_append, List.length_map,
      hrange, List.length_nil]
    omega
  · rw [W_centers]
    exact List.getLastD_concat ..
  · intro i hi
    have hmid : i < (midpoints wnns).length := by omega
    rw [W_centers, List.append_assoc, List.singleton_append]
    show (midpoints wnns ++ [mu + 6 * sigma]).getD i 0 = _
    rw [List.getD_eq_getElem?_getD, List.getElem?_append, if_pos hmid,
      ← List.getD_eq_getElem?_getD]
    exact midpoints_getD wnns i (by omega)
  · intro i hi
    rw [log_posterior_W,
      zipWith_getD _ _ _ _ _ 0 FV.nan (by omega) (by omega),
      log_prior_W, map_getD _ _ _ _ 0 (by omega)]
  · intro i hi
    rw [log_posterior_avg,
      map_getD _ _ _ _ 0 (by simpa using (by omega : i < DEG_GAUSS_HERMITE - 1)),
      List.getD_eq_getElem _ _ (by simpa using (by omega : i < DEG_GAUSS_HERMITE - 1)),
      List.getElem_range,
      drop_take_two (log_posterior_W wnns mu sigma logL) i FV.nan (by omega)]
  · intro i hi
    rw [log_posterior_mass,
      zipWith_getD _ _ _ _ _ FV.nan 0 (by omega)
        (by rw [W_bin_sizes, length_adjacentDiffs, hw]; omega),
      W_bin_sizes, adjacentDiffs_getD wnns i (by omega)]
  · intro i hi
    rw [log_posterior_mass_norm,
      map_getD _ _ _ _ FV.nan (by omega)]
  · rw [log_F_W, show DEG_GAUSS_HERMITE = 20 from rfl]
    show ((List.range' 1 (20 - 1)).map (fun i => lse
        ((log_posterior_mass_norm lse flog (log_posterior_W wnns mu sigma logL) wnns).take i))
        ++ ([FV.fin 0] : List (FV α))).getD 19 FV.nan = FV.fin 0
    rw [List.getD_eq_getElem?_getD, List.getElem?_append, if_neg (by simp)]
    simp
  · intro i h1 hi
    obtain ⟨k, rfl⟩ : ∃ k, i = k + 1 := ⟨i - 1, by omega⟩
    rw [log_F_W]
    show ((List.range' 1 (DEG_GAUSS_HERMITE - 1)).map (fun i => lse
        ((log_posterior_mass_norm lse flog (log_posterior_W wnns mu sigma logL) wnns).take i))
        ++ ([FV.fin 0] : List (FV α))).getD k FV.nan = lse
        ((log_posterior_mass_norm lse flog (log_posterior_W wnns mu sigma logL) wnns).take (k + 1))
    have hk : k < (List.range' 1 (DEG_GAUSS_HERMITE - 1)).length := by
      rw [hrange]; omega
    rw [List.getD_eq_getElem?_getD, List.getElem?_append,
      if_pos (by simpa using hk), ← List.getD_eq_getElem?_getD,
      map_getD _ _ _ _ 0 hk, List.getD_eq_getElem _ _ hk, List.getElem_range']
    simp [Nat.add_comm]

/-- Witness for C2 (amended) at a concrete degree-20 instantiation. -/
theorem sample_W_construction_witness :
    (List.replicate 20 (0 : ℚ)).length = DEG_GAUSS_HERMITE ∧
    (List.replicate 20 (FV.fin (0 : ℚ))).length = DEG_GAUSS_HERMITE ∧
    sample_W (α := ℚ) (fun _ => FV.fin 0) (fun q => FV.fin q)
        (List.replicate 20 (FV.fin 0)) (List.replicate 20 0) 0 1 1 =
      interpFV (FV.fin 1)
        (log_F_W (fun _ => FV.fin 0) (fun q => FV.fin q)
          (log_posterior_W (List.replicate 20 0) 0 1 (List.replicate 20 (FV.fin 0)))
          (List.replicate 20 0))
        ((W_centers (List.replicate 20 0) 0 1).map FV.fin) :=
  ⟨by decide, by decide,
    (sample_W_construction (fun _ => FV.fin 0) (fun q => FV.fin q)
      (List.replicate 20 (FV.fin 0)) (List.replicate 20 0) 0 1 1
      (by decide) (by decide)).1⟩

/-! ### C3 — non-finite log likelihoods and the NaN guard -/

/-- C3 counterexample: a `+inf` per-node log likelihood is non-finite
but is not replaced by `-inf` — the `np.isnan` guard passes it through,
and likewise a `+inf` edge-absent likelihood survives
`log_pr_noA = prior + logL0` unguarded. -/
theorem nonfinite_logL_not_replaced :
    weighted_log_L (α := ℚ) (fun q => FV.fin q) 1 (List.replicate 20 1)
        (List.replicate 20 FV.pinf) = List.replicate 20 FV.pinf ∧
    (FV.pinf : FV ℚ) ≠ FV.ninf ∧
    guardNaN (FV.fadd (FV.fin (0 : ℚ)) FV.pinf) = FV.pinf := by
  with_unfolding_all decide

/-- C3 (amended): the NaN guard of the collapsed update replaces exactly
the NaN values by `-inf`: every entry of `weighted_log_L` and the guarded
`log_pr_noA` are never NaN (a NaN input becomes `-inf`, a `-inf` input
stays `-inf`, but a `+inf` input propagates as `+inf`); and on the
non-breakpoint path where `log_G` is finite, the other decision input
`prior_lp_A + log_G` is not NaN either, so no NaN reaches the sampled
decision for `A[i, j]`. -/
theorem nan_guarding_amended (flog : α → FV α) (sqrtpi : α) (ghw : List α)
    (logL : List (FV α)) (prior_lp_A prior_lp_noA ll0 lG : FV α)
    (h1 : prior_lp_A ≠ FV.nan) (h2 : prior_lp_A ≠ FV.pinf)
    (h3 : lG.isfinite = true) :
    (∀ v ∈ weighted_log_L flog sqrtpi ghw logL, v ≠ FV.nan) ∧
    (∀ v : FV α, v.isnan = true → guardNaN v = FV.ninf) ∧
    guardNaN (FV.fadd prior_lp_noA ll0) ≠ FV.nan ∧
    FV.fadd prior_lp_A lG ≠ FV.nan := by
  refine ⟨?_, ?_, guardNaN_ne_nan _, ?_⟩
  · induction logL generalizing ghw with
    | nil => intro v hv; simp [weighted_log_L] at hv
    | cons l t ih =>
      intro v hv
      cases ghw with
      | nil => simp [weighted_log_L] at hv
      | cons g gw =>
        rw [show weighted_log_L flog sqrtpi (g :: gw) (l :: t) =
          guardNaN (FV.fadd l (flog (g / sqrtpi))) ::
            weighted_log_L flog sqrtpi gw t from rfl] at hv
        rcases List.mem_cons.mp hv with h | h
        · exact h ▸ guardNaN_ne_nan _
        · exact ih gw v h
  · intro v hv
    cases v <;> simp_all [FV.isnan, guardNaN]
  · cases prior_lp_A <;> cases lG <;> simp_all [FV.fadd, FV.isfinite]

/-- Witness for C3 (amended). -/
theorem nan_guarding_amended_witness :
    ((FV.fin (-1 : ℚ) ≠ FV.nan) ∧ (FV.fin (-1 : ℚ) ≠ FV.pinf) ∧
      (FV.fin (2 : ℚ)).isfinite = true) ∧
    ((∀ v ∈ weighted_log_L (α := ℚ) (fun q => FV.fin q) 1 [1, 1]
        [FV.nan, FV.pinf], v ≠ FV.nan) ∧
     (∀ v : FV ℚ, v.isnan = true → guardNaN v = FV.ninf) ∧
     guardNaN (FV.fadd FV.ninf (FV.fin (3 : ℚ))) ≠ FV.nan ∧
     FV.fadd (FV.fin (-1 : ℚ)) (FV.fin 2) ≠ FV.nan) :=
  ⟨⟨by decide, by decide, by decide⟩,
    nan_guarding_amended (fun q => FV.fin q) 1 [1, 1] [FV.nan, FV.pinf]
      (FV.fin (-1)) FV.ninf (FV.fin 3) (FV.fin 2)
      (by decide) (by decide) (by decide)⟩

/-! ### C4 — a non-finite `log_G` does not abort the sweep -/

/-- C4: at an edge whose likelihood probe is `-inf` whenever the edge is
forced present (so every weighted term and
`log_G = logsumexp(...) = -inf` are non-finite) but finite with the edge
absent, the collapsed step merely executes the `pdb.set_trace()`
breakpoint (flag `hitPdb`) and then continues: it still samples
`A[i, j]` from `[log_pr_noA, prior + log_G]` and writes a fresh prior
weight, returning a normally updated state instead of surfacing an
error. -/
theorem nonfinite_logG_continues :
    (collapsed_sample_AW (α := ℚ) (G := Unit)
        (fun s => if getA s 0 0 = 1 then FV.ninf else FV.fin 0) (fun _ => FV.ninf)
        (fun q => FV.fin q) (fun _ => 0) 1 1 (List.replicate 20 0) (List.replicate 20 1)
        0 1 0 1 (fun _ _ => 1 / 2) (1 / 2) 0 0 0
        ⟨[[0]], [FV.fin 0], none, [()]⟩).hitPdb = true ∧
    (collapsed_sample_AW (α := ℚ) (G := Unit)
        (fun s => if getA s 0 0 = 1 then FV.ninf else FV.fin 0) (fun _ => FV.ninf)
        (fun q => FV.fin q) (fun _ => 0) 1 1 (List.replicate 20 0) (List.replicate 20 1)
        0 1 0 1 (fun _ _ => 1 / 2) (1 / 2) 0 0 0
        ⟨[[0]], [FV.fin 0], none, [()]⟩).state =
      ⟨[[0]], [FV.fin 0], none, [()]⟩ := by with_unfolding_all decide

/-! ### C5 — the with-prior mode on an unchanged proposal -/

/-- C5 counterexample: with the proposal leaving `A[i, j]` unchanged at
0, the with-prior step leaves the whole state (in particular the weight)
untouched, although the quadrature conditional resample would produce a
different weight value — so the weight is not resampled for every state
of the unchanged indicator. -/
theorem unchanged_proposal_no_resample_counterexample :
    ((if FV.flt (FV.fin (1 : ℚ)) (FV.fin (1 / 2)) then 1 else 0) =
      getA (⟨[[0]], [FV.fin 5], none, [()]⟩ : FullState ℚ Unit) 0 0) ∧
    collapsed_sample_AW_with_prior (α := ℚ) (G := Unit) (fun _ => FV.fin 0)
        (fun _ => FV.fin 0) (fun q => FV.fin q) 1 1 (List.replicate 20 0)
        (List.replicate 20 1) 0 1 0 1 (fun _ _ => 1 / 2) 1 1 1 0 0
        ⟨[[0]], [FV.fin 5], none, [()]⟩ =
      ⟨[[0]], [FV.fin 5], none, [()]⟩ ∧
    prior_W_resample (α := ℚ) (fun _ => FV.fin 0) (fun q => FV.fin q) 1
        (List.replicate 20 1) (W_nns 1 1 0 (List.replicate 20 0))
        (fun w => (glm_ll_A (α := ℚ) (G := Unit) (fun _ => FV.fin 0) 0 0 (FV.fin w)
          ⟨[[0]], [FV.fin 5], none, [()]⟩).1) 1 ≠
      getW (⟨[[0]], [FV.fin 5], none, [()]⟩ : FullState ℚ Unit) 0 0 := by
  with_unfolding_all decide

/-- C5 (amended): whenever the prior proposal leaves `A[i, j]` unchanged,
the with-prior step resamples the weight from its quadrature conditional
only if the unchanged indicator is nonzero; an unchanged absent edge
leaves the state untouched. -/
theorem with_prior_unchanged_proposal (evalLL : FullState α G → FV α)
    (lse : List (FV α) → FV α) (flog : α → FV α)
    (sqrt2 sqrtpi : α) (ghx ghw : List α)
    (mu_w sigma_w mu_w_ref sigma_w_ref : α)
    (p_A : ℕ → ℕ → α) (u1 u2 u3 : α) (i j : ℕ) (x : FullState α G)
    (h : (if FV.flt (flog u1) (flog (p_A i j)) then 1 else 0) = getA x i j) :
    collapsed_sample_AW_with_prior evalLL lse flog sqrt2 sqrtpi ghx ghw
        mu_w sigma_w mu_w_ref sigma_w_ref p_A u1 u2 u3 i j x =
      if getA x i j ≠ 0 then
        setWentry x i j (prior_W_resample lse flog sqrtpi ghw
          (W_nns sqrt2 (if i = j then sigma_w_ref else sigma_w)
            (if i = j then mu_w_ref else mu_w) ghx)
          (fun w => (glm_ll_A evalLL i j (FV.fin w) x).1) u3)
      else x := by
  simp only [collapsed_sample_AW_with_prior, h]
  simp

/-- Witness for C5 (amended) on an unchanged present edge. -/
theorem with_prior_unchanged_proposal_witness :
    ((if FV.flt (FV.fin (0 : ℚ)) (FV.fin (1 / 2)) then 1 else 0) =
      getA (⟨[[1]], [FV.fin 5], none, [()]⟩ : FullState ℚ Unit) 0 0) ∧
    collapsed_sample_AW_with_prior (α := ℚ) (G := Unit) (fun _ => FV.fin 0)
        (fun _ => FV.fin 0) (fun q => FV.fin q) 1 1 (List.replicate 20 0)
        (List.replicate 20 1) 0 1 0 1 (fun _ _ => 1 / 2) 0 1 1 0 0
        ⟨[[1]], [FV.fin 5], none, [()]⟩ =
      (if getA (⟨[[1]], [FV.fin 5], none, [()]⟩ : FullState ℚ Unit) 0 0 ≠ 0 then
        setWentry (⟨[[1]], [FV.fin 5], none, [()]⟩ : FullState ℚ Unit) 0 0
          (prior_W_resample (fun _ => FV.fin 0) (fun q => FV.fin q) 1
            (List.replicate 20 1)
            (W_nns 1 (if (0 : ℕ) = 0 then 1 else 1) (if (0 : ℕ) = 0 then 0 else 0)
              (List.replicate 20 0))
            (fun w => (glm_ll_A (α := ℚ) (G := Unit) (fun _ => FV.fin 0) 0 0 (FV.fin w)
              ⟨[[1]], [FV.fin 5], none, [()]⟩).1) 1)
      else ⟨[[1]], [FV.fin 5], none, [()]⟩) :=
  ⟨by with_unfolding_all decide,
    with_prior_unchanged_proposal (fun _ => FV.fin 0) (fun _ => FV.fin 0)
      (fun q => FV.fin q) 1 1 (List.replicate 20 0) (List.replicate 20 1)
      0 1 0 1 (fun _ _ => 1 / 2) 0 1 1 0 0
      ⟨[[1]], [FV.fin 5], none, [()]⟩ (by with_unfolding_all decide)⟩

/-! ### C8 — every update rule preserves the `N x N` shapes and the
0/1 adjacency entries -/

theorem getD_mem {β : Type} (l : List β) (i : ℕ) (d : β) (h : i < l.length) :
    l.getD i d ∈ l := by
  rw [List.getD_eq_getElem _ _ h]
  exact List.getElem_mem h

theorem wf_setAentry {N : ℕ} {x : FullState α G} (i j v : ℕ)
    (hwf : wfState N x) (hv : v = 0 ∨ v = 1) :
    wfState N (setAentry x i j v) := by
  obtain ⟨h1, h2, h3, h4⟩ := hwf
  by_cases hi : i < x.A.length
  · refine ⟨by simpa [setAentry, length_set2] using h1,
      fun r hr => ?_, by simpa [setAentry] using h3, fun r hr w hw => ?_⟩
    · rcases List.mem_or_eq_of_mem_set hr with hr' | rfl
      · exact h2 r hr'
      · rw [List.length_set]
        exact h2 _ (getD_mem x.A i [] hi)
    · rcases List.mem_or_eq_of_mem_set hr with hr' | rfl
      · exact h4 r hr' w hw
      · rcases List.mem_or_eq_of_mem_set hw with hw' | rfl
        · exact h4 _ (getD_mem x.A i [] hi) w hw'
        · exact hv
  · have : setAentry x i j v = x := by
      simp only [setAentry, set2]
      rw [List.set_eq_of_length_le (by omega)]
    rw [this]
    exact ⟨h1, h2, h3, h4⟩

theorem wf_setWentry {N : ℕ} {x : FullState α G} (i j : ℕ) (v : FV α)
    (hwf : wfState N x) : wfState N (setWentry x i j v) := by
  obtain ⟨h1, h2, h3, h4⟩ := hwf
  exact ⟨h1, h2, by simpa [setWentry] using h3, h4⟩

theorem setAentry_W (x : FullState α G) (i j v) : (setAentry x i j v).W = x.W := rfl

theorem setWentry_A (x : FullState α G) (i j : ℕ) (v : FV α) :
    (setWentry x i j v).A = x.A := rfl

theorem foldl_preserves {σ ι : Type} (P : σ → Prop) (f : σ → ι → σ) :
    ∀ (l : List ι) (x : σ), (∀ s i, P s → P (f s i)) → P x → P (l.foldl f x)
  | [], _, _, hx => hx
  | i :: t, x, h, hx => foldl_preserves P f t (f x i) h (h x i hx)

theorem wf_collapsed_sample_AW {N : ℕ} (evalLL : FullState α G → FV α)
    (lse : List (FV α) → FV α) (flog : α → FV α)
    (sampler : List (FV α) → ℕ)
    (sqrt2 sqrtpi : α) (ghx ghw : List α)
    (mu_w sigma_w mu_w_ref sigma_w_ref : α)
    (p_A : ℕ → ℕ → α) (uW z : α) (n_pre n_post : ℕ) {x : FullState α G}
    (hwf : wfState N x)
    (hs : ∀ l : List (FV α), l ≠ [] → sampler l < l.length) :
    wfState N (collapsed_sample_AW evalLL lse flog sampler sqrt2 sqrtpi ghx ghw
      mu_w sigma_w mu_w_ref sigma_w_ref p_A uW z n_pre n_post x).state := by
  have ha : ∀ a b : FV α, sampler [a, b] = 0 ∨ sampler [a, b] = 1 := by
    intro a b
    have := hs [a, b] (by simp)
    simp only [List.length_cons, List.length_nil] at this
    omega
  rw [collapsed_sample_AW]
  split <;> split <;>
    exact wf_setWentry _ _ _ (wf_setAentry _ _ _ hwf (ha _ _))

theorem wf_collapsed_sample_AW_with_prior {N : ℕ} (evalLL : FullState α G → FV α)
    (lse : List (FV α) → FV α) (flog : α → FV α)
    (sqrt2 sqrtpi : α) (ghx ghw : List α)
    (mu_w sigma_w mu_w_ref sigma_w_ref : α)
    (p_A : ℕ → ℕ → α) (u1 u2 u3 : α) (n_pre n_post : ℕ) {x : FullState α G}
    (hwf : wfState N x) :
    wfState N (collapsed_sample_AW_with_prior evalLL lse flog sqrt2 sqrtpi ghx ghw
      mu_w sigma_w mu_w_ref sigma_w_ref p_A u1 u2 u3 n_pre n_post x) := by
  rw [collapsed_sample_AW_with_prior]
  have hp : ∀ b : Bool, (if b = true then (1 : ℕ) else 0) = 0 ∨
      (if b = true then (1 : ℕ) else 0) = 1 := by
    intro b
    cases b <;> simp
  have hp1 := hp (FV.flt (flog u1) (flog (p_A n_pre n_post)))
  revert hp1
  generalize (if FV.flt (flog u1) (flog (p_A n_pre n_post)) = true
    then (1 : ℕ) else 0) = prop
  intro hp1
  repeat' split
  all_goals try dsimp only
  repeat' split
  all_goals
    first
    | exact hwf
    | exact wf_setWentry _ _ _ hwf
    | exact wf_setAentry _ _ _ hwf hp1
    | exact wf_setWentry _ _ _ (wf_setAentry _ _ _ hwf hp1)

theorem wf_collapsed_update {N : ℕ} (propose_from_prior : Bool)
    (evalLL : FullState α G → FV α)
    (lse : List (FV α) → FV α) (flog : α → FV α)
    (sampler : List (FV α) → ℕ)
    (sqrt2 sqrtpi : α) (ghx ghw : List α)
    (mu_w sigma_w mu_w_ref sigma_w_ref : α)
    (p_A : ℕ → ℕ → α) (uW z u1 u2 u3 : ℕ → α)
    (order : List ℕ) {x : FullState α G} (n : ℕ)
    (hwf : wfState N x)
    (hs : ∀ l : List (FV α), l ≠ [] → sampler l < l.length) :
    wfState N (collapsed_update propose_from_prior evalLL lse flog sampler
      sqrt2 sqrtpi ghx ghw mu_w sigma_w mu_w_ref sigma_w_ref p_A
      uW z u1 u2 u3 order x n) := by
  refine foldl_preserves (wfState N) _ order x (fun s i hP => ?_) hwf
  dsimp only
  split
  · exact wf_collapsed_sample_AW_with_prior _ _ _ _ _ _ _ _ _ _ _ _ _ _ _ _ _ hP
  · exact wf_collapsed_sample_AW _ _ _ _ _ _ _ _ _ _ _ _ _ _ _ _ _ hP hs

theorem vsubF_length (a b : List (FV α)) :
    (vsubF a b).length = min a.length b.length := by
  simp [vsubF, List.length_zipWith]

theorem vaddF_length (a b : List (FV α)) :
    (vaddF a b).length = min a.length b.length := by
  simp [vaddF, List.length_zipWith]

theorem vscaleF_length (c : FV α) (v : List (FV α)) :
    (vscaleF c v).length = v.length := by
  simp [vscaleF]

theorem leapfrogF_lengths (gradNll : List (FV α) → List (FV α))
    (hg : ∀ v, (gradNll v).length = v.length) (eps : FV α) :
    ∀ (k : ℕ) (q p : List (FV α)), p.length = q.length →
      (leapfrogF gradNll eps k (q, p)).1.length = q.length ∧
      (leapfrogF gradNll eps k (q, p)).2.length = q.length
  | 0, _, _, h => ⟨rfl, h⟩
  | k + 1, q, p, h => by
    have h1 : (vsubF p (vscaleF (FV.fdiv eps (FV.fin 2)) (gradNll q))).length
        = q.length := by
      rw [vsubF_length, vscaleF_length, hg, h, Nat.min_self]
    have h2 : (vaddF q (vscaleF eps
        (vsubF p (vscaleF (FV.fdiv eps (FV.fin 2)) (gradNll q))))).length
        = q.length := by
      rw [vaddF_length, vscaleF_length, h1, Nat.min_self]
    have h3 : (vsubF
        (vsubF p (vscaleF (FV.fdiv eps (FV.fin 2)) (gradNll q)))
        (vscaleF (FV.fdiv eps (FV.fin 2)) (gradNll (vaddF q (vscaleF eps
          (vsubF p (vscaleF (FV.fdiv eps (FV.fin 2)) (gradNll q)))))))).length
        = q.length := by
      rw [vsubF_length, vscaleF_length, hg, h1, h2, Nat.min_self]
    have := leapfrogF_lengths gradNll hg eps k
      (vaddF q (vscaleF eps (vsubF p (vscaleF (FV.fdiv eps (FV.fin 2)) (gradNll q)))))
      (vsubF (vsubF p (vscaleF (FV.fdiv eps (FV.fin 2)) (gradNll q)))
        (vscaleF (FV.fdiv eps (FV.fin 2)) (gradNll (vaddF q (vscaleF eps
          (vsubF p (vscaleF (FV.fdiv eps (FV.fin 2)) (gradNll q))))))))
      (by rw [h2, h3])
    rw [show leapfrogF gradNll eps (k + 1) (q, p) = leapfrogF gradNll eps k
      (vaddF q (vscaleF eps (vsubF p (vscaleF (FV.fdiv eps (FV.fin 2)) (gradNll q)))),
       vsubF (vsubF p (vscaleF (FV.fdiv eps (FV.fin 2)) (gradNll q)))
        (vscaleF (FV.fdiv eps (FV.fin 2)) (gradNll (vaddF q (vscaleF eps
          (vsubF p (vscaleF (FV.fdiv eps (FV.fin 2)) (gradNll q)))))))) from rfl]
    rw [h2] at this
    exact this

theorem hmc_length (gradNll : List (FV α) → List (FV α)) (step_sz : FV α)
    (n_steps : ℕ) (q0 p0 : List (FV α)) (accept : Bool)
    (hg : ∀ v, (gradNll v).length = v.length) (hp : p0.length = q0.length) :
    (hmc gradNll step_sz n_steps q0 p0 accept).length = q0.length := by
  rw [hmc]
  split
  · exact (leapfrogF_lengths gradNll hg step_sz n_steps q0 p0 hp).1
  · rfl

theorem wf_sample_column_of_A {N : ℕ} (evalJoint : FullState α G → FV α)
    (sampler : List (FV α) → ℕ) (n_post : ℕ) {x : FullState α G}
    (hwf : wfState N x)
    (hs : ∀ l : List (FV α), l ≠ [] → sampler l < l.length) :
    wfState N (sample_column_of_A evalJoint sampler N n_post x) ∧
    (sample_column_of_A evalJoint sampler N n_post x).W = x.W := by
  refine foldl_preserves (fun s => wfState N s ∧ s.W = x.W) _ (List.range N) x
    (fun s i h => ?_) ⟨hwf, rfl⟩
  dsimp only
  obtain ⟨hP, hW⟩ := h
  have hlt := hs [evalJoint (setAentry s i n_post 0),
    evalJoint (setAentry (setAentry s i n_post 0) i n_post 1)] (by simp)
  simp only [List.length_cons, List.length_nil] at hlt
  exact ⟨wf_setAentry _ _ _
      (wf_setAentry _ _ _ (wf_setAentry _ _ _ hP (by omega)) (by omega)) (by omega),
    hW⟩

theorem latent_preserves_AW (gradNll : List (FV α) → List (FV α))
    (step_sz : FV α) (p0 : List (FV α)) (accept : Bool) (rows cols : ℕ)
    (x x' : FullState α G)
    (h : latent_distance_update gradNll step_sz p0 accept rows cols x = some x') :
    x'.A = x.A ∧ x'.W = x.W ∧ x'.glms = x.glms := by
  rw [latent_distance_update] at h
  rcases hL : x.L with _ | L
  · rw [hL] at h
    simp only [Option.some.injEq] at h
    rw [← h]
    exact ⟨rfl, rfl, rfl⟩
  · rw [hL] at h
    dsimp only at h
    split at h
    · simp only [Option.some.injEq] at h
      rw [← h]
      exact ⟨rfl, rfl, rfl⟩
    · exact absurd h (by simp)

/-- C8: for every well-formed state (`N x N` adjacency with 0/1 entries,
`N * N` flattened weights), each of the four update rules — the GLM HMC
update, the collapsed network-column update (either mode), the plain
network-column update, and the latent-location update — returns a state
with exactly the same shapes and with every adjacency entry exactly 0 or
1.  External contracts used: the categorical sampler returns an index
into its weight list, and the HMC gradient oracles preserve vector
length (with a momentum draw of matching length). -/
theorem update_rules_preserve_shapes {N : ℕ}
    (glm_step : ℕ → FullState α G → G)
    (propose_from_prior : Bool) (evalLL : FullState α G → FV α)
    (lse : List (FV α) → FV α) (flog : α → FV α)
    (sampler : List (FV α) → ℕ)
    (sqrt2 sqrtpi : α) (ghx ghw : List α)
    (mu_w sigma_w mu_w_ref sigma_w_ref : α)
    (p_A : ℕ → ℕ → α) (uW z u1 u2 u3 : ℕ → α) (order : List ℕ)
    (evalJoint : FullState α G → FV α)
    (gradW : List (FV α) → List (FV α)) (step_szW : FV α)
    (p0W : List (FV α)) (acceptW : Bool)
    (gradL : List (FV α) → List (FV α)) (step_szL : FV α)
    (p0L : List (FV α)) (acceptL : Bool) (rows cols : ℕ)
    (n : ℕ) (x : FullState α G)
    (hwf : wfState N x)
    (hs : ∀ l : List (FV α), l ≠ [] → sampler l < l.length)
    (hgW : ∀ v, (gradW v).length = v.length)
    (hpW : p0W.length = N * N) :
    wfState N (hmc_glm_update glm_step x n) ∧
    wfState N (collapsed_update propose_from_prior evalLL lse flog sampler
      sqrt2 sqrtpi ghx ghw mu_w sigma_w mu_w_ref sigma_w_ref p_A
      uW z u1 u2 u3 order x n) ∧
    wfState N (gibbs_network_column_update evalJoint sampler gradW step_szW
      p0W acceptW N x n) ∧
    (∀ x', latent_distance_update gradL step_szL p0L acceptL rows cols x = some x' →
      wfState N x') := by
  obtain ⟨h1, h2, h3, h4⟩ := hwf
  refine ⟨⟨h1, h2, h3, h4⟩, ?_, ?_, ?_⟩
  · exact wf_collapsed_update propose_from_prior evalLL lse flog sampler
      sqrt2 sqrtpi ghx ghw mu_w sigma_w mu_w_ref sigma_w_ref p_A
      uW z u1 u2 u3 order n ⟨h1, h2, h3, h4⟩ hs
  · obtain ⟨⟨g1, g2, g3, g4⟩, gW⟩ :=
      wf_sample_column_of_A evalJoint sampler n (x := x) ⟨h1, h2, h3, h4⟩ hs
    refine ⟨g1, g2, ?_, g4⟩
    rw [gibbs_network_column_update, sample_column_of_W]
    show (hmc gradW step_szW 10
      (sample_column_of_A evalJoint sampler N n x).W p0W acceptW).length = N * N
    rw [hmc_length gradW step_szW 10 _ p0W acceptW hgW (by rw [hpW, gW, h3]), gW, h3]
  · intro x' hx'
    obtain ⟨e1, e2, _⟩ := latent_preserves_AW gradL step_szL p0L acceptL
      rows cols x x' hx'
    exact ⟨by rw [e1]; exact h1, by rw [e1]; exact h2, by rw [e2]; exact h3,
      by rw [e1]; exact h4⟩

/-- Witness for C8 at a concrete one-unit state. -/
theorem update_rules_preserve_shapes_witness :
    (wfState 1 (⟨[[1]], [FV.fin 0], none, [()]⟩ : FullState ℚ Unit) ∧
      (∀ l : List (FV ℚ), l ≠ [] → (fun _ => 0 : List (FV ℚ) → ℕ) l < l.length) ∧
      (∀ v : List (FV ℚ), ((fun v => v) v).length = v.length) ∧
      [FV.fin (0 : ℚ)].length = 1 * 1) ∧
    (wfState 1 (hmc_glm_update (α := ℚ) (G := Unit) (fun _ _ => ())
        ⟨[[1]], [FV.fin 0], none, [()]⟩ 0) ∧
      wfState 1 (collapsed_update (α := ℚ) (G := Unit) false (fun _ => FV.fin 0)
        (fun _ => FV.fin 0)
        (fun q => FV.fin q) (fun _ => 0) 1 1 (List.replicate 20 0)
        (List.replicate 20 1) 0 1 0 1 (fun _ _ => 1 / 2) (fun _ => 1) (fun _ => 1)
        (fun _ => 1) (fun _ => 1) (fun _ => 1) [0]
        ⟨[[1]], [FV.fin 0], none, [()]⟩ 0) ∧
      wfState 1 (gibbs_network_column_update (α := ℚ) (G := Unit) (fun _ => FV.fin 0)
        (fun _ => 0) (fun v => v) (FV.fin 1) [FV.fin 0] true 1
        ⟨[[1]], [FV.fin 0], none, [()]⟩ 0) ∧
      (∀ x', latent_distance_update (α := ℚ) (G := Unit) (fun v => v) (FV.fin 1)
        [] true 1 1 ⟨[[1]], [FV.fin 0], none, [()]⟩ = some x' → wfState 1 x')) :=
  ⟨⟨by decide,
    fun l hl => by
      cases l with
      | nil => exact absurd rfl hl
      | cons a t => simp,
    fun _ => rfl, by decide⟩,
   update_rules_preserve_shapes (α := ℚ) (G := Unit) (fun _ _ => ()) false (fun _ => FV.fin 0)
     (fun _ => FV.fin 0) (fun q => FV.fin q) (fun _ => 0) 1 1
     (List.replicate 20 0) (List.replicate 20 1) 0 1 0 1 (fun _ _ => 1 / 2)
     (fun _ => 1) (fun _ => 1) (fun _ => 1) (fun _ => 1) (fun _ => 1) [0]
     (fun _ => FV.fin 0) (fun v => v) (FV.fin 1) [FV.fin 0] true
     (fun v => v) (FV.fin 1) [] true 1 1 0
     ⟨[[1]], [FV.fin 0], none, [()]⟩ (by decide)
     (fun l hl => by
       cases l with
       | nil => exact absurd rfl hl
       | cons a t => simp)
     (fun _ => rfl) (by decide)⟩

/-- Witness for C6 (amended) at a configuration carrying a refractory
prior. -/
theorem refractory_prior_selection_witness :
    ((3 : ℕ) = 3 →
      selected_prior_pair (preprocess_weight_priors (α := ℚ) ⟨0, 1, some (-2, 5)⟩).1
        (preprocess_weight_priors (α := ℚ) ⟨0, 1, some (-2, 5)⟩).2 3 3 =
        (preprocess_weight_priors (α := ℚ) ⟨0, 1, some (-2, 5)⟩).2) ∧
    ((3 : ℕ) ≠ 3 →
      selected_prior_pair (preprocess_weight_priors (α := ℚ) ⟨0, 1, some (-2, 5)⟩).1
        (preprocess_weight_priors (α := ℚ) ⟨0, 1, some (-2, 5)⟩).2 3 3 =
        (preprocess_weight_priors (α := ℚ) ⟨0, 1, some (-2, 5)⟩).1) ∧
    (∀ p, (WeightPriorCfg.refractory_prior (α := ℚ) ⟨0, 1, some (-2, 5)⟩) = some p →
      (preprocess_weight_priors (α := ℚ) ⟨0, 1, some (-2, 5)⟩).2 = p) ∧
    ((WeightPriorCfg.refractory_prior (α := ℚ) ⟨0, 1, some (-2, 5)⟩) = none →
      (preprocess_weight_priors (α := ℚ) ⟨0, 1, some (-2, 5)⟩).2 = (0, 1)) :=
  ⟨(refractory_prior_selection (α := ℚ) (G := Unit) ⟨0, 1, some (-2, 5)⟩ 3 3).1,
   (refractory_prior_selection (α := ℚ) (G := Unit) ⟨0, 1, some (-2, 5)⟩ 3 3).2.1,
   (refractory_prior_selection (α := ℚ) (G := Unit) ⟨0, 1, some (-2, 5)⟩ 3 3).2.2.1,
   (refractory_prior_selection (α := ℚ) (G := Unit) ⟨0, 1, some (-2, 5)⟩ 3 3).2.2.2.1⟩

end PyGLM
